import Mathlib

/-!
Verification of the formatting-target core of `src/src/core/format.hpp`
(OpenTTD-patches).

The development shallowly embeds the `format_target` class hierarchy:
`format_to_buffer` / `format_buffer` (growable, backed by an
`fmt::basic_memory_buffer`), `format_to_fixed` and `format_to_fixed_z`
(fixed-capacity, backed by a caller-supplied region plus a private 32-byte
discard region).  Bytes are modelled as `Nat`; a memory region is a
`List Nat` indexed from 0; the member `flags` (bits `FL_FIXED`,
`FL_OVERFLOW`) is modelled as two `Bool` fields.

The underlying `fmt::detail::buffer` state (`ptr_`, `size_`, `capacity_`)
is modelled by `Buf`: the field `inDiscard` records which region `ptr_`
currently points into (the caller-visible main region, or the private
discard region of a fixed target after an overflow redirect).
-/

/-- Write the byte list `bs` into memory `mem` starting at index `i`
(`mem[i] = bs[0]`, `mem[i+1] = bs[1]`, ...).  Out-of-range stores are
dropped, mirroring that the embedded code never stores out of range. -/
def storeBytes : List Nat → Nat → List Nat → List Nat
  | mem, _, [] => mem
  | mem, i, b :: bs => storeBytes (mem.set i b) (i + 1) bs

/-- State of an `fmt::detail::buffer<char>`: current write region selector,
the two backing memory regions, `size_` and `capacity_`. -/
structure Buf where
  inDiscard : Bool
  main : List Nat
  disc : List Nat
  bsize : Nat
  cap : Nat
deriving DecidableEq

/-- State of a `format_target` (and of its subobjects): the `FL_FIXED` and
`FL_OVERFLOW` flag bits, the `format_to_fixed_base::buffer_size` member
(0 and unused for non-fixed targets), and the referenced buffer state. -/
structure format_target where
  fixed : Bool
  ovf : Bool
  bufferSize : Nat
  buf : Buf
deriving DecidableEq

/-- Embeds `sizeof(format_to_fixed_base::discard)`: the private discard region of a
fixed-capacity target holds 32 bytes (`char discard[32]`). -/
def discardSize : Nat := 32

/-- Embeds `fmt::detail::buffer` store into the region `ptr_` currently points at. -/
def regionWrite (b : Buf) (i : Nat) (bytes : List Nat) : Buf :=
  if b.inDiscard then { b with disc := storeBytes b.disc i bytes }
  else { b with main := storeBytes b.main i bytes }

/-- Modelled from the spec: `format_to_fixed_base::grow` (declared at
src/src/core/format.hpp line 224; its body lives in a source file of this
repository that is not under src/).  Spec 3 and 4.3: once a write would
exceed `buffer_capacity` the target sets `OVERFLOWED` and "growth requests
beyond the bound are satisfied by redirecting the excess into a private
discard region", so that the render engine can always write at least one
more block.  While the current region still has free space the request is
left to the partial-write logic of the buffer's `append` loop ("the write
that triggers the transition is itself truncated to fit"); once the current
region is exhausted the write cursor is redirected to the start of the
32-byte discard region. -/
def growFixed (t : format_target) : format_target :=
  if t.buf.bsize = t.buf.cap then
    { t with ovf := true,
             buf := { t.buf with inDiscard := true, bsize := 0, cap := discardSize } }
  else t

/-- Modelled from the spec: the growable byte buffer primitive
(`fmt::basic_memory_buffer::grow`, vendored third-party code not under
src/).  Spec 2: "a reallocating byte store with size, capacity, append,
reserve", never overflowing.  Growth reallocates to at least the requested
capacity (fmt uses one-and-a-half growth, at least the request), moving the
stored bytes; the fresh tail is modelled as zero bytes. -/
def growBuffer (t : format_target) (req : Nat) : format_target :=
  { t with buf := { t.buf with
      cap := max (t.buf.cap + t.buf.cap / 2) req,
      main := t.buf.main ++ List.replicate (max (t.buf.cap + t.buf.cap / 2) req - t.buf.cap) 0 } }

/-- Dispatch of the virtual `fmt::detail::buffer::grow`: fixed targets
override it (`format_to_fixed_base::grow`), growable targets use the
memory buffer's own growth. -/
def grow (t : format_target) (req : Nat) : format_target :=
  if t.fixed then growFixed t else growBuffer t req

/-- Embeds `fmt::detail::buffer::try_reserve(new_capacity)`: grow only when the
requested capacity exceeds the current one. -/
def try_reserve (t : format_target) (req : Nat) : format_target :=
  if t.buf.cap < req then grow t req else t

/-- Write `bytes` at the current end of the buffer and advance `size_`. -/
def writeAdvance (t : format_target) (bytes : List Nat) : format_target :=
  { t with buf :=
      { regionWrite t.buf t.buf.bsize bytes with
        bsize := t.buf.bsize + bytes.length } }

/-- Embeds `fmt::detail::buffer::append(begin, end)`: loop reserving room,
copying as many of the remaining bytes as fit the free capacity, and
advancing, until all bytes are consumed.  The fuel argument bounds the
number of iterations; each iteration of the embedded code consumes at
least one byte, so `bytes.length` units of fuel suffice. -/
def bufAppendLoop : Nat → List Nat → format_target → format_target
  | 0, _, t => t
  | _ + 1, [], t => t
  | fuel + 1, b :: bs, t =>
      let t1 := try_reserve t (t.buf.bsize + (b :: bs).length)
      if t1.buf.cap - t1.buf.bsize = 0 then t1
      else
        bufAppendLoop fuel
          ((b :: bs).drop (min (b :: bs).length (t1.buf.cap - t1.buf.bsize)))
          (writeAdvance t1 ((b :: bs).take (min (b :: bs).length (t1.buf.cap - t1.buf.bsize))))

/-- Embeds `fmt::detail::buffer::append` entry point. -/
def bufAppend (bytes : List Nat) (t : format_target) : format_target :=
  bufAppendLoop bytes.length bytes t

/-- Embeds `fmt::detail::buffer::push_back(value)`: `try_reserve(size_ + 1)` then
store at `ptr_[size_]` and increment `size_`. -/
def bufPushBack (c : Nat) (t : format_target) : format_target :=
  writeAdvance (try_reserve t (t.buf.bsize + 1)) [c]

/-- Embeds `fmt::detail::buffer::try_resize(count)`: `try_reserve(count)` then
`size_ = min(count, capacity_)`. -/
def try_resize (count : Nat) (t : format_target) : format_target :=
  let t1 := try_reserve t count
  { t1 with buf := { t1.buf with bsize := min count t1.buf.cap } }

/-- Embeds `format_target::has_overflowed()`: `(flags & FL_OVERFLOW) != 0`. -/
def has_overflowed (t : format_target) : Bool := t.ovf

namespace format_target

/-- Embeds `format_target::append(begin, end)` / `append(std::string_view)`:
skipped when overflowed, otherwise the buffer's `append`. -/
def append (bytes : List Nat) (t : format_target) : format_target :=
  if has_overflowed t then t else bufAppend bytes t

/-- Embeds `format_target::push_back(c)`: skipped when overflowed, otherwise the
buffer's `push_back`. -/
def push_back (c : Nat) (t : format_target) : format_target :=
  if has_overflowed t then t else bufPushBack c t

/-- Embeds `format_target::vformat(fmtstr, args)`: skipped when overflowed,
otherwise `fmt::detail::vformat_to` renders into the buffer.  The external
render engine is out of scope (spec 1); per spec glossary, a render expands
a template with arguments into a byte sequence written to the target, so it
is modelled by its rendered byte sequence `rendered`, emitted through the
buffer's append contract. -/
def vformat (rendered : List Nat) (t : format_target) : format_target :=
  if has_overflowed t then t else bufAppend rendered t

/-- Embeds `format_target::format(fmtstr, args...)`: same body as `vformat` after
the variadic arguments are packed. -/
def format (rendered : List Nat) (t : format_target) : format_target :=
  if has_overflowed t then t else bufAppend rendered t

/-- Embeds `format_target::append_ptr_last_func(to_reserve, func)`: reserve room,
expose the region `[data + size, data + capacity - 1)` to the caller's
writer when it is non-empty, and `try_resize` to the position the writer
reports.  The writer is modelled as a function from the room it is shown to
the bytes it stores there (clamped to the room, per its contract of
returning a pointer at most `last`).  Note: the embedded code has no
`has_overflowed()` guard. -/
def append_ptr_last_func (to_reserve : Nat) (f : Nat → List Nat) (t : format_target) :
    format_target :=
  let t1 := try_reserve t (t.buf.bsize + to_reserve)
  if t1.buf.bsize + 1 < t1.buf.cap then
    let out := (f (t1.buf.cap - 1 - t1.buf.bsize)).take (t1.buf.cap - 1 - t1.buf.bsize)
    try_resize (t1.buf.bsize + out.length)
      { t1 with buf := regionWrite t1.buf t1.buf.bsize out }
  else t1

/-- Embeds `format_target::append_span_func(to_reserve, func)`: reserve room,
return early when the buffer is exactly full, otherwise expose the span
`[data + size, capacity - size)` to the writer and `try_resize` by the
count it reports (clamped to the span, per its contract).  Note: the
embedded code has no `has_overflowed()` guard. -/
def append_span_func (to_reserve : Nat) (f : Nat → List Nat) (t : format_target) :
    format_target :=
  let t1 := try_reserve t (t.buf.bsize + to_reserve)
  if t1.buf.bsize = t1.buf.cap then t1
  else
    let out := (f (t1.buf.cap - t1.buf.bsize)).take (t1.buf.cap - t1.buf.bsize)
    try_resize (t1.buf.bsize + out.length)
      { t1 with buf := regionWrite t1.buf t1.buf.bsize out }

/-- Embeds `format_to_fixed_base::written()`: `buffer_size` when overflowed,
otherwise the base buffer's `size()`. -/
def written (t : format_target) : Nat :=
  if t.ovf then t.bufferSize else t.buf.bsize

/-- Embeds `format_target::size()`: `written()` of the fixed subobject when
`FL_FIXED` is set, otherwise the buffer's size. -/
def size (t : format_target) : Nat :=
  if t.fixed then written t else t.buf.bsize

/-- Embeds `format_target::data()`: the region the returned pointer points into —
`format_to_fixed_base::buffer_ptr` (the caller-supplied main region) when
`FL_FIXED` is set, otherwise `target.data()` (the region the buffer's write
cursor currently points into). -/
def data (t : format_target) : List Nat :=
  if t.fixed then t.buf.main
  else if t.buf.inDiscard then t.buf.disc else t.buf.main

/-- The caller-visible contents: the bytes in `[data(), data() + size())`. -/
def contents (t : format_target) : List Nat := (data t).take (size t)

/-- Modelled from the spec: `format_to_fixed_base::restore_size_impl`
(declared at src/src/core/format.hpp line 225; its body lives in a source
file of this repository that is not under src/).  Spec 4.3: "restore_size(n)
with n <= buffer_capacity returns to NORMAL and sets written=n"; spec 8:
"restore_size(n) for n <= current size resets size() to n and, if n <= C,
clears has_overflowed()".  Returning to NORMAL points the write cursor back
at the caller-supplied region with its fixed capacity. -/
def restore_size_impl (n : Nat) (t : format_target) : format_target :=
  if n ≤ t.bufferSize then
    { t with ovf := false,
             buf := { t.buf with inDiscard := false, bsize := n, cap := t.bufferSize } }
  else t

/-- Modelled from the spec: `format_target::restore_size` (declared at
src/src/core/format.hpp line 83; its body lives in a source file of this
repository that is not under src/).  Spec 3/4.1: truncate the target back
to a previously observed size; fixed targets go through
`restore_size_impl`, buffer-backed targets truncate the growable buffer's
logical length (`try_resize`) without releasing capacity. -/
def restore_size (n : Nat) (t : format_target) : format_target :=
  if t.fixed then restore_size_impl n t else try_resize n t

end format_target

/-- Embeds `fmt::inline_buffer_size`: initial capacity of `fmt::memory_buffer`. -/
def inline_buffer_size : Nat := 500

/-- A fresh `format_buffer` (a `format_to_buffer` whose
`fmt::memory_buffer` is built in): flags 0, empty buffer with the inline
capacity.  The heap region starts as unspecified memory, modelled as zero
bytes. -/
def format_buffer_init : format_target :=
  { fixed := false, ovf := false, bufferSize := 0,
    buf := { inDiscard := false, main := List.replicate inline_buffer_size 0,
             disc := [], bsize := 0, cap := inline_buffer_size } }

/-- Embeds `format_to_buffer` around an existing `fmt::basic_memory_buffer` whose
current memory region is `mem` (of length `cap`) holding `s` stored bytes:
flags 0. -/
def format_to_buffer_init (mem : List Nat) (s : Nat) : format_target :=
  { fixed := false, ovf := false, bufferSize := 0,
    buf := { inDiscard := false, main := mem, disc := [], bsize := s, cap := mem.length } }

/-- Embeds `format_to_fixed(dst, size)` / the `format_to_fixed_base(dst, size,
FL_FIXED)` constructor: the base buffer is `buffer(dst, 0, size)`, so the
write cursor starts at the caller-supplied region `mem` with capacity `C`.
The discard region starts as unspecified memory, modelled as zero bytes. -/
def format_to_fixed_init (mem : List Nat) (C : Nat) : format_target :=
  { fixed := true, ovf := false, bufferSize := C,
    buf := { inDiscard := false, main := mem, disc := List.replicate discardSize 0,
             bsize := 0, cap := C } }

/-- Embeds `format_to_fixed_z(dst, last)`: a `format_to_fixed_base` with capacity
`last - dst = C`; the caller-supplied region `mem` additionally contains
the byte at `last` itself (spec 4.4: one byte is implicitly reserved for
the terminator), so `mem.length = C + 1` at the call sites. -/
def format_to_fixed_z_init (mem : List Nat) (C : Nat) : format_target :=
  format_to_fixed_init mem C

/-- Embeds `format_to_fixed_z::finalise()`: `written = this->written();
initial_dst[written] = 0; return initial_dst + written;`.  The result is
the state after the terminator store paired with the offset of the
returned pointer from `initial_dst`. -/
def finalise (t : format_target) : format_target × Nat :=
  ({ t with buf := { t.buf with main := t.buf.main.set (t.written) 0 } }, t.written)

/-- Embeds `format_buffer::c_str()`: when `size() == capacity()`, reserve one more
byte; then store a 0 byte at `*(end())` (offset `size()`, without changing
the logical size) and return `data()`. -/
def c_str (t : format_target) : format_target :=
  let t1 := if t.buf.bsize = t.buf.cap then try_reserve t (t.buf.cap + 1) else t
  { t1 with buf := { t1.buf with main := t1.buf.main.set t1.buf.bsize 0 } }

/-- A write request issued against a `format_target`: a raw byte append
(`append`), a single byte (`push_back`), or a template render
(`format`/`vformat`, represented by its rendered byte sequence). -/
inductive WriteOp where
  | append (bytes : List Nat)
  | push (c : Nat)
  | render (bytes : List Nat)
deriving DecidableEq

/-- The input byte sequence a write request carries. -/
def WriteOp.bytes : WriteOp → List Nat
  | .append bs => bs
  | .push c => [c]
  | .render bs => bs

/-- Issue one write request against a target. -/
def applyOp (t : format_target) : WriteOp → format_target
  | .append bs => t.append bs
  | .push c => t.push_back c
  | .render bs => t.vformat bs

/-- Issue a sequence of write requests, in order. -/
def applyOps (t : format_target) (ops : List WriteOp) : format_target :=
  ops.foldl applyOp t

/-- Total byte length of a sequence of write requests. -/
def totalLen (ops : List WriteOp) : Nat :=
  (ops.map (fun op => op.bytes.length)).sum

/-- Concatenated input of a sequence of write requests. -/
def flattenOps (ops : List WriteOp) : List Nat :=
  (ops.map WriteOp.bytes).flatten

/-- The state of a fixed-capacity target after a run of write requests. -/
def fixedRun (C : Nat) (mem : List Nat) (ops : List WriteOp) : format_target :=
  applyOps (format_to_fixed_init mem C) ops

/-- The state of a fresh `format_buffer` after a run of write requests. -/
def bufferRun (ops : List WriteOp) : format_target :=
  applyOps format_buffer_init ops

/-- A fixed-capacity target of capacity `C` in the NORMAL regime: no
overflow, write cursor in the caller-supplied region `mem` (current
contents), `s` bytes written, discard region contents `d`. -/
def normalFixed (C : Nat) (mem d : List Nat) (s : Nat) : format_target :=
  { fixed := true, ovf := false, bufferSize := C,
    buf := { inDiscard := false, main := mem, disc := d, bsize := s, cap := C } }

/-- Shape of a fixed-capacity target of capacity `C` in the OVERFLOWED
regime: overflow flag set, write cursor redirected into the 32-byte
discard region. -/
def OvState (C : Nat) (t : format_target) : Prop :=
  t.fixed = true ∧ t.ovf = true ∧ t.bufferSize = C ∧ t.buf.inDiscard = true ∧
  t.buf.cap = discardSize ∧ t.buf.bsize ≤ discardSize

/-- A fixed-capacity target of capacity `C` right after the overflow
redirect: flag set, write cursor at the start of the discard region. -/
def redirected (C : Nat) (mem d : List Nat) : format_target :=
  { fixed := true, ovf := true, bufferSize := C,
    buf := { inDiscard := true, main := mem, disc := d, bsize := 0, cap := discardSize } }

/-- Shape of the state of a buffer-backed (growable) target that has
stored the byte sequence `W`: `FL_FIXED` and `FL_OVERFLOW` clear, write
cursor in the heap region, `W` the stored prefix of the region, region
length equal to the capacity. -/
def GrowState (W : List Nat) (t : format_target) : Prop :=
  t.fixed = false ∧ t.ovf = false ∧ t.buf.inDiscard = false ∧
  t.buf.bsize = W.length ∧ W.length ≤ t.buf.cap ∧
  t.buf.main.length = t.buf.cap ∧ t.buf.main.take W.length = W

/-- Characterization of a fixed-capacity target of capacity `C` over
initial caller region `mem` after the byte sequence `W` has been
requested: within capacity the state is NORMAL with exactly `W` stored;
beyond capacity, OVERFLOWED with the prefix of `W` that fits stored in the
caller region. -/
def fixedReach (C : Nat) (mem W : List Nat) (t : format_target) : Prop :=
  if W.length ≤ C then
    t = normalFixed C (storeBytes mem 0 W) (List.replicate discardSize 0) W.length
  else
    OvState C t ∧ t.buf.main = storeBytes mem 0 (W.take C)

/-- The terminator store of `c_str`: write a 0 byte at offset `size()`
without advancing the logical size. -/
def setTermByte (t : format_target) : format_target :=
  { t with buf := { t.buf with main := t.buf.main.set t.buf.bsize 0 } }

/-- The byte sequence of the string hello world, for concrete runs. -/
def helloWorldBytes : List Nat := [104, 101, 108, 108, 111, 32, 119, 111, 114, 108, 100]

/-! ### Ground lemmas about byte stores -/

theorem storeBytes_length (bs : List Nat) : ∀ (mem : List Nat) (i : Nat),
    (storeBytes mem i bs).length = mem.length := by
  induction bs with
  | nil => intro mem i; rfl
  | cons b bs ih => intro mem i; rw [storeBytes, ih, List.length_set]

theorem storeBytes_append_arg (a : List Nat) : ∀ (b mem : List Nat) (i : Nat),
    storeBytes mem i (a ++ b) = storeBytes (storeBytes mem i a) (i + a.length) b := by
  induction a with
  | nil => intro b mem i; simp [storeBytes]
  | cons x a ih =>
    intro b mem i
    have h : i + (x :: a).length = (i + 1) + a.length := by simp; omega
    rw [List.cons_append, storeBytes, ih, storeBytes, h]

theorem storeBytes_splice : ∀ (bs mem : List Nat) (i : Nat), i + bs.length ≤ mem.length →
    storeBytes mem i bs = mem.take i ++ bs ++ mem.drop (i + bs.length) := by
  intro bs
  induction bs with
  | nil => intro mem i h; simp [storeBytes]
  | cons b bs ih =>
    intro mem i h
    have hlen : i < mem.length := by simp at h; omega
    have hlen' : (i + 1) + bs.length ≤ (mem.set i b).length := by
      rw [List.length_set]; simp at h; omega
    rw [storeBytes, ih _ _ hlen', List.set_eq_take_cons_drop b hlen]
    have hl1 : (mem.take i).length = i := by rw [List.length_take]; omega
    have p1 : (mem.take i ++ b :: mem.drop (i + 1)).take (i + 1) = mem.take i ++ [b] := by
      rw [List.take_append_eq_append_take, hl1, List.take_take]
      have e1 : min (i + 1) i = i := by omega
      have e2 : i + 1 - i = 1 := by omega
      rw [e1, e2]
      simp
    have p2 : (mem.take i ++ b :: mem.drop (i + 1)).drop ((i + 1) + bs.length)
        = mem.drop (i + (b :: bs).length) := by
      rw [List.drop_append_eq_append_drop, hl1]
      have e3 : (i + 1) + bs.length - i = bs.length + 1 := by omega
      have e4 : (mem.take i).drop ((i + 1) + bs.length) = [] := by
        apply List.drop_eq_nil_of_le
        rw [hl1]; omega
      rw [e3, e4, List.nil_append, List.drop_succ_cons, List.drop_drop]
      congr 1
      simp
      omega
    rw [p1, p2]
    simp

theorem take_storeBytes_of_le (bs : List Nat) : ∀ (mem : List Nat) (i k : Nat), k ≤ i →
    (storeBytes mem i bs).take k = mem.take k := by
  induction bs with
  | nil => intro mem i k _; rfl
  | cons b bs ih =>
    intro mem i k hk
    rw [storeBytes, ih _ _ _ (by omega), List.set_take]
    apply List.set_eq_of_length_le
    rw [List.length_take]
    omega

/-! ### The two regimes of a fixed-capacity target -/

theorem bufAppendLoop_nil (fuel : Nat) (t : format_target) :
    bufAppendLoop fuel [] t = t := by
  cases fuel <;> rfl

theorem try_reserve_ov (C req : Nat) (t : format_target) (h : OvState C t) :
    OvState C (try_reserve t req) ∧ (try_reserve t req).buf.main = t.buf.main := by
  obtain ⟨h1, h2, h3, h4, h5, h6⟩ := h
  rw [try_reserve]
  by_cases hc : t.buf.cap < req
  · rw [if_pos hc, grow, if_pos h1, growFixed]
    by_cases hb : t.buf.bsize = t.buf.cap
    · rw [if_pos hb]
      exact ⟨⟨h1, rfl, h3, rfl, rfl, by simp [discardSize]⟩, rfl⟩
    · rw [if_neg hb]
      exact ⟨⟨h1, h2, h3, h4, h5, h6⟩, rfl⟩
  · rw [if_neg hc]
    exact ⟨⟨h1, h2, h3, h4, h5, h6⟩, rfl⟩

theorem writeAdvance_ov (C : Nat) (t : format_target) (bytes : List Nat)
    (h : OvState C t) (hb : t.buf.bsize + bytes.length ≤ discardSize) :
    OvState C (writeAdvance t bytes) ∧ (writeAdvance t bytes).buf.main = t.buf.main := by
  obtain ⟨h1, h2, h3, h4, h5, h6⟩ := h
  refine ⟨⟨?_, ?_, ?_, ?_, ?_, ?_⟩, ?_⟩
  · simpa [writeAdvance, regionWrite, h4] using h1
  · simpa [writeAdvance, regionWrite, h4] using h2
  · simpa [writeAdvance, regionWrite, h4] using h3
  · simp [writeAdvance, regionWrite, h4]
  · simpa [writeAdvance, regionWrite, h4] using h5
  · simpa [writeAdvance, regionWrite, h4] using hb
  · simp [writeAdvance, regionWrite, h4]

/-- Once the write cursor sits in the discard region, the buffer `append`
loop never touches the caller-supplied region and keeps the overflowed
shape, whatever bytes it absorbs. -/
theorem bufAppendLoop_ov (C : Nat) : ∀ (fuel : Nat) (bytes : List Nat) (t : format_target),
    OvState C t →
    OvState C (bufAppendLoop fuel bytes t) ∧
    (bufAppendLoop fuel bytes t).buf.main = t.buf.main := by
  intro fuel
  induction fuel with
  | zero => intro bytes t h; exact ⟨h, rfl⟩
  | succ fuel ih =>
    intro bytes t h
    cases bytes with
    | nil => exact ⟨h, rfl⟩
    | cons b bs =>
      rw [bufAppendLoop]
      obtain ⟨hr, hrm⟩ := try_reserve_ov C (t.buf.bsize + (b :: bs).length) t h
      by_cases hc : (try_reserve t (t.buf.bsize + (b :: bs).length)).buf.cap -
          (try_reserve t (t.buf.bsize + (b :: bs).length)).buf.bsize = 0
      · simp only [hc, if_pos rfl]
        exact ⟨hr, hrm⟩
      · simp only [if_neg hc]
        set t1 := try_reserve t (t.buf.bsize + (b :: bs).length) with ht1
        have hwb : t1.buf.bsize +
            ((b :: bs).take (min (b :: bs).length (t1.buf.cap - t1.buf.bsize))).length ≤
            discardSize := by
          rw [List.length_take]
          have : t1.buf.cap = discardSize := hr.2.2.2.2.1
          have : t1.buf.bsize ≤ discardSize := hr.2.2.2.2.2
          omega
        obtain ⟨hw, hwm⟩ := writeAdvance_ov C t1 _ hr hwb
        obtain ⟨hl, hlm⟩ := ih _ _ hw
        exact ⟨hl, by rw [hlm, hwm, hrm]⟩

/-- Appending bytes that fit the remaining capacity of a NORMAL fixed
target stores them after the existing contents and advances the size. -/
theorem bufAppend_fixed_fit (C s : Nat) (mem d bytes : List Nat)
    (hfit : s + bytes.length ≤ C) :
    bufAppend bytes (normalFixed C mem d s)
      = normalFixed C (storeBytes mem s bytes) d (s + bytes.length) := by
  cases bytes with
  | nil => simp [bufAppend, bufAppendLoop_nil, storeBytes, normalFixed]
  | cons b bs =>
    have hlen : (b :: bs).length = bs.length + 1 := rfl
    rw [hlen] at hfit
    have hmin : min (b :: bs).length (C - s) = (b :: bs).length := by
      rw [hlen]; omega
    have hbs : (normalFixed C mem d s).buf.bsize = s := rfl
    have hcap : (normalFixed C mem d s).buf.cap = C := rfl
    have hres : try_reserve (normalFixed C mem d s)
        ((normalFixed C mem d s).buf.bsize + (b :: bs).length) = normalFixed C mem d s := by
      rw [try_reserve, if_neg]
      rw [hbs, hcap, hlen]
      omega
    rw [bufAppend, hlen, bufAppendLoop]
    rw [hres, hbs, hcap]
    rw [if_neg (by omega : ¬ (C - s = 0))]
    rw [hmin, List.drop_length, bufAppendLoop_nil, List.take_length]
    simp [writeAdvance, regionWrite, normalFixed, hlen]


theorem OvState_redirected (C : Nat) (mem d : List Nat) : OvState C (redirected C mem d) :=
  ⟨rfl, rfl, rfl, rfl, rfl, Nat.zero_le _⟩

theorem grow_normalFixed (C : Nat) (mem d : List Nat) (s req : Nat) :
    grow (normalFixed C mem d s) req =
      if s = C then redirected C mem d else normalFixed C mem d s := by
  rw [grow, if_pos (show (normalFixed C mem d s).fixed = true from rfl), growFixed]
  by_cases h : s = C
  · rw [if_pos h]
    rw [if_pos (show (normalFixed C mem d s).buf.bsize = (normalFixed C mem d s).buf.cap from h)]
    subst h
    rfl
  · rw [if_neg h]
    rw [if_neg (show ¬ ((normalFixed C mem d s).buf.bsize = (normalFixed C mem d s).buf.cap) from h)]

theorem try_reserve_normalFixed (C : Nat) (mem d : List Nat) (s req : Nat) :
    try_reserve (normalFixed C mem d s) req =
      if C < req ∧ s = C then redirected C mem d else normalFixed C mem d s := by
  rw [try_reserve]
  by_cases hc : (normalFixed C mem d s).buf.cap < req
  · rw [if_pos hc, grow_normalFixed]
    have hc' : C < req := hc
    by_cases hs : s = C
    · rw [if_pos hs, if_pos ⟨hc', hs⟩]
    · rw [if_neg hs, if_neg (by tauto)]
  · have hc' : ¬ (C < req) := hc
    rw [if_neg hc, if_neg (by tauto)]

/-- Appending a non-empty byte list to a NORMAL fixed target that is
exactly full sets the overflow flag, redirects the write cursor to the
discard region, and never touches the caller-supplied region. -/
theorem bufAppendLoop_full (C : Nat) (mem d : List Nat) (fuel b : Nat) (bs : List Nat) :
    OvState C (bufAppendLoop (fuel + 1) (b :: bs) (normalFixed C mem d C)) ∧
    (bufAppendLoop (fuel + 1) (b :: bs) (normalFixed C mem d C)).buf.main = mem := by
  have hbs : (normalFixed C mem d C).buf.bsize = C := rfl
  have hlen : (b :: bs).length = bs.length + 1 := rfl
  rw [bufAppendLoop, hbs, hlen, try_reserve_normalFixed]
  rw [if_pos (⟨by omega, rfl⟩ : C < C + (bs.length + 1) ∧ C = C)]
  rw [if_neg (show ¬ ((redirected C mem d).buf.cap - (redirected C mem d).buf.bsize = 0)
    from (by decide : ¬ (discardSize - 0 = 0)))]
  have hb : (redirected C mem d).buf.bsize + ((b :: bs).take (min (bs.length + 1)
      ((redirected C mem d).buf.cap - (redirected C mem d).buf.bsize))).length ≤ discardSize := by
    show 0 + ((b :: bs).take (min (bs.length + 1) (discardSize - 0))).length ≤ discardSize
    rw [List.length_take]
    have hds : discardSize = 32 := rfl
    rw [hds, hlen]
    omega
  obtain ⟨hw, hwm⟩ := writeAdvance_ov C (redirected C mem d)
      ((b :: bs).take (min (bs.length + 1)
        ((redirected C mem d).buf.cap - (redirected C mem d).buf.bsize)))
      (OvState_redirected C mem d) hb
  obtain ⟨hl, hlm⟩ := bufAppendLoop_ov C fuel
      ((b :: bs).drop (min (bs.length + 1)
        ((redirected C mem d).buf.cap - (redirected C mem d).buf.bsize))) _ hw
  exact ⟨hl, by rw [hlm, hwm]; rfl⟩

/-- Appending bytes that exceed the remaining capacity of a NORMAL fixed
target truncates the write: the portion that fits lands in the caller
region after the existing contents, the overflow flag is set, and the
excess is absorbed by the discard region. -/
theorem bufAppend_fixed_cross (C s : Nat) (mem d bytes : List Nat)
    (hs : s ≤ C) (hover : C < s + bytes.length) :
    OvState C (bufAppend bytes (normalFixed C mem d s)) ∧
    (bufAppend bytes (normalFixed C mem d s)).buf.main
      = storeBytes mem s (bytes.take (C - s)) := by
  cases bytes with
  | nil => simp at hover; omega
  | cons b bs =>
    have hlen : (b :: bs).length = bs.length + 1 := rfl
    rw [hlen] at hover
    by_cases hsC : s = C
    · subst hsC
      rw [bufAppend, hlen]
      obtain ⟨h1, h2⟩ := bufAppendLoop_full s mem d bs.length b bs
      refine ⟨h1, ?_⟩
      rw [h2]
      have hz : s - s = 0 := by omega
      rw [hz, List.take_zero, storeBytes]
    · have hslt : s < C := by omega
      have hbs : (normalFixed C mem d s).buf.bsize = s := rfl
      have hcap : (normalFixed C mem d s).buf.cap = C := rfl
      rw [bufAppend, hlen, bufAppendLoop, hlen, hbs, try_reserve_normalFixed]
      rw [if_neg (by tauto : ¬ (C < s + (bs.length + 1) ∧ s = C))]
      rw [hcap, hbs]
      rw [if_neg (by omega : ¬ (C - s = 0))]
      have hmin : min (bs.length + 1) (C - s) = C - s := by omega
      rw [hmin]
      have hwa : writeAdvance (normalFixed C mem d s) ((b :: bs).take (C - s))
          = normalFixed C (storeBytes mem s ((b :: bs).take (C - s))) d C := by
        simp [writeAdvance, regionWrite, normalFixed, List.length_take, hlen]
        omega
      rw [hwa]
      obtain ⟨b', bs', hdrop⟩ : ∃ b' bs', (b :: bs).drop (C - s) = b' :: bs' := by
        cases hd : (b :: bs).drop (C - s) with
        | nil =>
          rw [List.drop_eq_nil_iff, hlen] at hd
          omega
        | cons x xs => exact ⟨x, xs, rfl⟩
      obtain ⟨f, hf⟩ : ∃ f, bs.length = f + 1 := ⟨bs.length - 1, by omega⟩
      rw [hdrop, hf]
      exact bufAppendLoop_full C (storeBytes mem s ((b :: bs).take (C - s))) d f b' bs'

/-- Running `push_back` on a NORMAL fixed target with room left stores the byte at
the end and advances the size. -/
theorem bufPushBack_fixed_fit (C s c : Nat) (mem d : List Nat) (hs : s < C) :
    bufPushBack c (normalFixed C mem d s) = normalFixed C (storeBytes mem s [c]) d (s + 1) := by
  have hbs : (normalFixed C mem d s).buf.bsize = s := rfl
  rw [bufPushBack, hbs, try_reserve_normalFixed]
  rw [if_neg (by omega : ¬ (C < s + 1 ∧ s = C))]
  simp [writeAdvance, regionWrite, normalFixed, storeBytes]

/-- Running `push_back` on an exactly-full NORMAL fixed target overflows: the byte
lands in the discard region and the caller-supplied region is untouched. -/
theorem bufPushBack_fixed_full (C c : Nat) (mem d : List Nat) :
    OvState C (bufPushBack c (normalFixed C mem d C)) ∧
    (bufPushBack c (normalFixed C mem d C)).buf.main = mem := by
  have hbs : (normalFixed C mem d C).buf.bsize = C := rfl
  rw [bufPushBack, hbs, try_reserve_normalFixed]
  rw [if_pos (⟨by omega, rfl⟩ : C < C + 1 ∧ C = C)]
  have hb : (redirected C mem d).buf.bsize + ([c] : List Nat).length ≤ discardSize := by
    show 0 + 1 ≤ discardSize
    decide
  obtain ⟨hw, hwm⟩ := writeAdvance_ov C (redirected C mem d) [c] (OvState_redirected C mem d) hb
  exact ⟨hw, hwm.trans rfl⟩

/-! ### The buffer-backed (growable) regime -/

theorem try_reserve_growable (req : Nat) (t : format_target) (W : List Nat)
    (h : GrowState W t) :
    GrowState W (try_reserve t req) ∧ req ≤ (try_reserve t req).buf.cap := by
  obtain ⟨h1, h2, h3, h4, h5, h6, h7⟩ := h
  rw [try_reserve]
  by_cases hc : t.buf.cap < req
  · rw [if_pos hc, grow, if_neg (by simp [h1])]
    refine ⟨⟨h1, h2, h3, h4, ?_, ?_, ?_⟩, ?_⟩
    · show W.length ≤ max (t.buf.cap + t.buf.cap / 2) req
      omega
    · show (t.buf.main ++ List.replicate (max (t.buf.cap + t.buf.cap / 2) req - t.buf.cap) 0).length
        = max (t.buf.cap + t.buf.cap / 2) req
      rw [List.length_append, List.length_replicate, h6]
      omega
    · show (t.buf.main ++ List.replicate (max (t.buf.cap + t.buf.cap / 2) req - t.buf.cap) 0).take
        W.length = W
      rw [List.take_append_of_le_length (by omega), h7]
    · show req ≤ max (t.buf.cap + t.buf.cap / 2) req
      omega
  · rw [if_neg hc]
    exact ⟨⟨h1, h2, h3, h4, h5, h6, h7⟩, by omega⟩

/-- Closed form of a write-and-advance when the cursor is in the main
region. -/
theorem writeAdvance_main_eq (t : format_target) (bytes : List Nat)
    (h : t.buf.inDiscard = false) :
    writeAdvance t bytes =
      { fixed := t.fixed, ovf := t.ovf, bufferSize := t.bufferSize,
        buf := { inDiscard := false, main := storeBytes t.buf.main t.buf.bsize bytes,
                 disc := t.buf.disc, bsize := t.buf.bsize + bytes.length,
                 cap := t.buf.cap } } := by
  rw [writeAdvance, regionWrite, if_neg (by simp [h])]
  simp [h]

/-- The buffer `append` on a growable target stores all the bytes after
the current contents, growing as needed; it never overflows. -/
theorem bufAppend_growable (bytes W : List Nat) (t : format_target) (h : GrowState W t) :
    GrowState (W ++ bytes) (bufAppend bytes t) := by
  cases bytes with
  | nil => simpa [bufAppend, bufAppendLoop_nil] using h
  | cons b bs =>
    have hlen : (b :: bs).length = bs.length + 1 := rfl
    have hsz : t.buf.bsize = W.length := h.2.2.2.1
    obtain ⟨ht1, hcap1⟩ := try_reserve_growable (t.buf.bsize + (bs.length + 1)) t W h
    obtain ⟨g1, g2, g3, g4, g5, g6, g7⟩ := ht1
    have hcap1' : W.length + (bs.length + 1)
        ≤ (try_reserve t (t.buf.bsize + (bs.length + 1))).buf.cap := by
      rw [← hsz]; exact hcap1
    rw [bufAppend, hlen, bufAppendLoop, hlen]
    rw [if_neg (by rw [g4]; omega)]
    have hm : min (bs.length + 1)
        ((try_reserve t (t.buf.bsize + (bs.length + 1))).buf.cap -
         (try_reserve t (t.buf.bsize + (bs.length + 1))).buf.bsize) = bs.length + 1 := by
      rw [g4]; omega
    rw [hm]
    have hdrop : (b :: bs).drop (bs.length + 1) = [] := by
      rw [← hlen]; exact List.drop_length _
    have htake : (b :: bs).take (bs.length + 1) = b :: bs := by
      rw [← hlen]; exact List.take_length _
    rw [hdrop, htake, bufAppendLoop_nil, writeAdvance_main_eq _ _ g3]
    have hrange : W.length + (bs.length + 1)
        ≤ (try_reserve t (t.buf.bsize + (bs.length + 1))).buf.main.length := by
      rw [g6]; exact hcap1'
    refine ⟨g1, g2, rfl, ?_, ?_, ?_, ?_⟩
    · show (try_reserve t (t.buf.bsize + (bs.length + 1))).buf.bsize + (b :: bs).length
        = (W ++ b :: bs).length
      rw [g4, hlen, List.length_append, hlen]
    · show (W ++ b :: bs).length ≤ (try_reserve t (t.buf.bsize + (bs.length + 1))).buf.cap
      rw [List.length_append, hlen]
      exact hcap1'
    · show (storeBytes (try_reserve t (t.buf.bsize + (bs.length + 1))).buf.main
          (try_reserve t (t.buf.bsize + (bs.length + 1))).buf.bsize (b :: bs)).length
        = (try_reserve t (t.buf.bsize + (bs.length + 1))).buf.cap
      rw [storeBytes_length]; exact g6
    · show (storeBytes (try_reserve t (t.buf.bsize + (bs.length + 1))).buf.main
          (try_reserve t (t.buf.bsize + (bs.length + 1))).buf.bsize (b :: bs)).take
          (W ++ b :: bs).length = W ++ b :: bs
      rw [g4, storeBytes_splice _ _ _ (by rw [hlen]; exact hrange), g7]
      have e1 : (W ++ b :: bs).length = W.length + (bs.length + 1) := by
        rw [List.length_append, hlen]
      rw [List.take_append_eq_append_take, e1, Nat.sub_self, List.take_zero, List.append_nil,
        ← e1, List.take_length]

/-- The buffer `push_back` on a growable target appends the single byte. -/
theorem bufPushBack_growable (c : Nat) (W : List Nat) (t : format_target) (h : GrowState W t) :
    GrowState (W ++ [c]) (bufPushBack c t) := by
  have hsz : t.buf.bsize = W.length := h.2.2.2.1
  obtain ⟨ht1, hcap1⟩ := try_reserve_growable (t.buf.bsize + 1) t W h
  obtain ⟨g1, g2, g3, g4, g5, g6, g7⟩ := ht1
  have hcap1' : W.length + 1 ≤ (try_reserve t (t.buf.bsize + 1)).buf.cap := by
    rw [← hsz]; exact hcap1
  rw [bufPushBack, writeAdvance_main_eq _ _ g3]
  have hrange : W.length + 1 ≤ (try_reserve t (t.buf.bsize + 1)).buf.main.length := by
    rw [g6]; exact hcap1'
  refine ⟨g1, g2, rfl, ?_, ?_, ?_, ?_⟩
  · show (try_reserve t (t.buf.bsize + 1)).buf.bsize + ([c] : List Nat).length
      = (W ++ [c]).length
    rw [g4, List.length_append]
  · show (W ++ [c]).length ≤ (try_reserve t (t.buf.bsize + 1)).buf.cap
    rw [List.length_append]
    exact hcap1'
  · show (storeBytes (try_reserve t (t.buf.bsize + 1)).buf.main
        (try_reserve t (t.buf.bsize + 1)).buf.bsize [c]).length
      = (try_reserve t (t.buf.bsize + 1)).buf.cap
    rw [storeBytes_length]; exact g6
  · show (storeBytes (try_reserve t (t.buf.bsize + 1)).buf.main
        (try_reserve t (t.buf.bsize + 1)).buf.bsize [c]).take
        (W ++ [c]).length = W ++ [c]
    rw [g4, storeBytes_splice _ _ _ hrange, g7]
    have e1 : (W ++ [c]).length = W.length + 1 := by simp
    rw [List.take_append_eq_append_take, e1, Nat.sub_self, List.take_zero, List.append_nil,
      ← e1, List.take_length]

/-! ### Reachable states of a fixed-capacity target -/

theorem fixedReach_init (C : Nat) (mem : List Nat) :
    fixedReach C mem [] (format_to_fixed_init mem C) := by
  rw [fixedReach, if_pos (by simp)]
  rfl

theorem fixedReach_step (C : Nat) (mem W : List Nat) (t : format_target) (op : WriteOp)
    (h : fixedReach C mem W t) :
    fixedReach C mem (W ++ op.bytes) (applyOp t op) := by
  by_cases hWC : W.length ≤ C
  · rw [fixedReach, if_pos hWC] at h
    subst h
    cases op with
    | append bs =>
      rw [applyOp, format_target.append,
        if_neg (show ¬ (has_overflowed (normalFixed C (storeBytes mem 0 W)
          (List.replicate discardSize 0) W.length) = true) from by
            simp [has_overflowed, normalFixed])]
      by_cases hfit : W.length + bs.length ≤ C
      · rw [bufAppend_fixed_fit C W.length _ _ bs hfit]
        rw [fixedReach, WriteOp.bytes, if_pos (by rw [List.length_append]; omega)]
        rw [storeBytes_append_arg, Nat.zero_add, List.length_append]
      · have hover : C < W.length + bs.length := by omega
        obtain ⟨ho, hm⟩ := bufAppend_fixed_cross C W.length (storeBytes mem 0 W)
          (List.replicate discardSize 0) bs hWC hover
        rw [fixedReach, WriteOp.bytes, if_neg (by rw [List.length_append]; omega)]
        refine ⟨ho, ?_⟩
        rw [hm]
        have htc : (W ++ bs).take C = W ++ bs.take (C - W.length) := by
          rw [List.take_append_eq_append_take, List.take_of_length_le hWC]
        rw [htc, storeBytes_append_arg, Nat.zero_add]
    | render bs =>
      rw [applyOp, format_target.vformat,
        if_neg (show ¬ (has_overflowed (normalFixed C (storeBytes mem 0 W)
          (List.replicate discardSize 0) W.length) = true) from by
            simp [has_overflowed, normalFixed])]
      by_cases hfit : W.length + bs.length ≤ C
      · rw [bufAppend_fixed_fit C W.length _ _ bs hfit]
        rw [fixedReach, WriteOp.bytes, if_pos (by rw [List.length_append]; omega)]
        rw [storeBytes_append_arg, Nat.zero_add, List.length_append]
      · have hover : C < W.length + bs.length := by omega
        obtain ⟨ho, hm⟩ := bufAppend_fixed_cross C W.length (storeBytes mem 0 W)
          (List.replicate discardSize 0) bs hWC hover
        rw [fixedReach, WriteOp.bytes, if_neg (by rw [List.length_append]; omega)]
        refine ⟨ho, ?_⟩
        rw [hm]
        have htc : (W ++ bs).take C = W ++ bs.take (C - W.length) := by
          rw [List.take_append_eq_append_take, List.take_of_length_le hWC]
        rw [htc, storeBytes_append_arg, Nat.zero_add]
    | push c =>
      rw [applyOp, format_target.push_back,
        if_neg (show ¬ (has_overflowed (normalFixed C (storeBytes mem 0 W)
          (List.replicate discardSize 0) W.length) = true) from by
            simp [has_overflowed, normalFixed])]
      by_cases hlt : W.length < C
      · rw [bufPushBack_fixed_fit C W.length c _ _ hlt]
        rw [fixedReach, WriteOp.bytes, if_pos (by simp; omega)]
        rw [storeBytes_append_arg, Nat.zero_add, List.length_append]
        rfl
      · have hWCeq : W.length = C := by omega
        subst hWCeq
        obtain ⟨ho, hm⟩ := bufPushBack_fixed_full W.length c (storeBytes mem 0 W)
          (List.replicate discardSize 0)
        rw [fixedReach, WriteOp.bytes, if_neg (by simp)]
        refine ⟨ho, ?_⟩
        rw [hm]
        have htc : (W ++ [c]).take W.length = W.take W.length := by
          rw [List.take_append_of_le_length (by omega)]
        rw [htc, List.take_length]
  · rw [fixedReach, if_neg hWC] at h
    obtain ⟨ho, hm⟩ := h
    have hovf : t.ovf = true := ho.2.1
    have happ : applyOp t op = t := by
      cases op <;>
        simp [applyOp, format_target.append, format_target.push_back, format_target.vformat,
          has_overflowed, hovf]
    rw [happ, fixedReach, if_neg (by rw [List.length_append]; omega)]
    refine ⟨ho, ?_⟩
    rw [List.take_append_of_le_length (by omega), hm]

theorem fixedReach_run (C : Nat) (mem : List Nat) (ops : List WriteOp) :
    ∀ (W : List Nat) (t : format_target), fixedReach C mem W t →
    fixedReach C mem (W ++ flattenOps ops) (applyOps t ops) := by
  induction ops with
  | nil =>
    intro W t h
    simpa [applyOps, flattenOps] using h
  | cons op ops ih =>
    intro W t h
    have h2 := ih (W ++ op.bytes) (applyOp t op) (fixedReach_step C mem W t op h)
    have e : applyOps t (op :: ops) = applyOps (applyOp t op) ops := rfl
    have efl : W ++ flattenOps (op :: ops) = (W ++ op.bytes) ++ flattenOps ops := by
      rw [flattenOps, List.map_cons, List.flatten_cons, List.append_assoc]
      rfl
    rw [e, efl]
    exact h2

/-- The state of `format_to_fixed(dst, C)` / `format_to_fixed_z` after any
run of write requests is characterized by the concatenated input. -/
theorem fixedRun_reach (C : Nat) (mem : List Nat) (ops : List WriteOp) :
    fixedReach C mem (flattenOps ops) (fixedRun C mem ops) := by
  have h := fixedReach_run C mem ops [] (format_to_fixed_init mem C) (fixedReach_init C mem)
  simpa [fixedRun, applyOps] using h

theorem GrowState_step (W : List Nat) (t : format_target) (op : WriteOp) (h : GrowState W t) :
    GrowState (W ++ op.bytes) (applyOp t op) := by
  have hovf : ¬ (has_overflowed t = true) := by rw [has_overflowed, h.2.1]; simp
  cases op with
  | append bs =>
    rw [applyOp, format_target.append, if_neg hovf]
    exact bufAppend_growable bs W t h
  | render bs =>
    rw [applyOp, format_target.vformat, if_neg hovf]
    exact bufAppend_growable bs W t h
  | push c =>
    rw [applyOp, format_target.push_back, if_neg hovf]
    exact bufPushBack_growable c W t h

theorem GrowState_run (ops : List WriteOp) :
    ∀ (W : List Nat) (t : format_target), GrowState W t →
    GrowState (W ++ flattenOps ops) (applyOps t ops) := by
  induction ops with
  | nil =>
    intro W t h
    simpa [applyOps, flattenOps] using h
  | cons op ops ih =>
    intro W t h
    have h2 := ih (W ++ op.bytes) (applyOp t op) (GrowState_step W t op h)
    have e : applyOps t (op :: ops) = applyOps (applyOp t op) ops := rfl
    have efl : W ++ flattenOps (op :: ops) = (W ++ op.bytes) ++ flattenOps ops := by
      rw [flattenOps, List.map_cons, List.flatten_cons, List.append_assoc]
      rfl
    rw [e, efl]
    exact h2

theorem GrowState_format_buffer_init : GrowState [] format_buffer_init := by
  refine ⟨rfl, rfl, rfl, rfl, Nat.zero_le _, ?_, rfl⟩
  show (List.replicate inline_buffer_size 0).length = inline_buffer_size
  rw [List.length_replicate]

theorem GrowState_format_to_buffer_init (mem : List Nat) :
    GrowState [] (format_to_buffer_init mem 0) :=
  ⟨rfl, rfl, rfl, rfl, Nat.zero_le _, rfl, rfl⟩

/-- The state of a fresh `format_buffer` after any run of write requests. -/
theorem bufferRun_reach (ops : List WriteOp) : GrowState (flattenOps ops) (bufferRun ops) := by
  have h := GrowState_run ops [] format_buffer_init GrowState_format_buffer_init
  simpa [bufferRun, applyOps] using h

/-! ### Reading off the caller-visible quantities -/

theorem size_normalFixed (C : Nat) (M d : List Nat) (s : Nat) :
    (normalFixed C M d s).size = s := rfl

theorem written_normalFixed (C : Nat) (M d : List Nat) (s : Nat) :
    (normalFixed C M d s).written = s := rfl

theorem contents_normalFixed (C : Nat) (M d : List Nat) (s : Nat) :
    (normalFixed C M d s).contents = M.take s := rfl

theorem size_OvState (C : Nat) (t : format_target) (h : OvState C t) : t.size = C := by
  rw [format_target.size, if_pos h.1, format_target.written, if_pos h.2.1]
  exact h.2.2.1

theorem written_OvState (C : Nat) (t : format_target) (h : OvState C t) : t.written = C := by
  rw [format_target.written, if_pos h.2.1]
  exact h.2.2.1

theorem data_fixed (t : format_target) (h : t.fixed = true) : t.data = t.buf.main := by
  rw [format_target.data, if_pos h]

theorem contents_OvState (C : Nat) (t : format_target) (h : OvState C t) :
    t.contents = t.buf.main.take C := by
  rw [format_target.contents, data_fixed t h.1, size_OvState C t h]

theorem take_storeBytes_zero (W mem : List Nat) (h : W.length ≤ mem.length) :
    (storeBytes mem 0 W).take W.length = W := by
  rw [storeBytes_splice _ _ _ (by omega), List.take_zero, List.nil_append, Nat.zero_add,
    List.take_left]

/-! ### restore_size, c_str, finalise, and the reserve-and-write forms -/

theorem restore_size_normalFixed (C : Nat) (M d : List Nat) (s n : Nat) (hn : n ≤ C) :
    format_target.restore_size n (normalFixed C M d s) = normalFixed C M d n := by
  rw [format_target.restore_size, if_pos (show (normalFixed C M d s).fixed = true from rfl),
    format_target.restore_size_impl, if_pos (show n ≤ (normalFixed C M d s).bufferSize from hn)]
  rfl

theorem restore_size_OvState (C n : Nat) (t : format_target) (h : OvState C t) (hn : n ≤ C) :
    (format_target.restore_size n t).size = n ∧
    has_overflowed (format_target.restore_size n t) = false := by
  rw [format_target.restore_size, if_pos h.1, format_target.restore_size_impl,
    if_pos (show n ≤ t.bufferSize from by rw [h.2.2.1]; exact hn)]
  constructor <;> simp [format_target.size, format_target.written, has_overflowed, h.1]

theorem restore_size_GrowState (W : List Nat) (t : format_target) (n : Nat)
    (h : GrowState W t) (hn : n ≤ W.length) :
    (format_target.restore_size n t).size = n ∧
    has_overflowed (format_target.restore_size n t) = false := by
  obtain ⟨h1, h2, h3, h4, h5, h6, h7⟩ := h
  rw [format_target.restore_size, if_neg (by rw [h1]; simp)]
  simp only [try_resize]
  rw [show try_reserve t n = t from by rw [try_reserve, if_neg (by omega)]]
  constructor
  · simp [format_target.size, h1]
    omega
  · simp [has_overflowed, h2]

theorem finalise_normalFixed (C : Nat) (M d : List Nat) (s : Nat) (hs : s < M.length) :
    (finalise (normalFixed C M d s)).2 = s ∧
    ((finalise (normalFixed C M d s)).1.buf.main)[s]? = some 0 ∧
    (finalise (normalFixed C M d s)).1.buf.main.take s = M.take s := by
  refine ⟨rfl, ?_, ?_⟩
  · show (M.set s 0)[s]? = some 0
    exact List.getElem?_set_self hs
  · show (M.set s 0).take s = M.take s
    rw [List.set_take]
    exact List.set_eq_of_length_le (by rw [List.length_take]; omega)

theorem mk_regionWrite_ov (C : Nat) (t : format_target) (i : Nat) (bytes : List Nat)
    (h : OvState C t) :
    OvState C { t with buf := regionWrite t.buf i bytes } ∧
    ({ t with buf := regionWrite t.buf i bytes } : format_target).buf.main = t.buf.main := by
  obtain ⟨h1, h2, h3, h4, h5, h6⟩ := h
  refine ⟨⟨h1, h2, h3, ?_, ?_, ?_⟩, ?_⟩
  · simp [regionWrite, h4]
  · simpa [regionWrite, h4] using h5
  · simpa [regionWrite, h4] using h6
  · simp [regionWrite, h4]

theorem try_resize_ov (C n : Nat) (t : format_target) (h : OvState C t) :
    OvState C (try_resize n t) ∧ (try_resize n t).buf.main = t.buf.main := by
  obtain ⟨hrs, hrm⟩ := try_reserve_ov C n t h
  obtain ⟨r1, r2, r3, r4, r5, r6⟩ := hrs
  simp only [try_resize]
  refine ⟨⟨r1, r2, r3, r4, r5, ?_⟩, ?_⟩
  · show min n (try_reserve t n).buf.cap ≤ discardSize
    rw [r5]
    exact Nat.min_le_right _ _
  · exact hrm

/-- Running `append_ptr_last_func` on an overflowed fixed target runs the caller
writer into the discard region: the overflowed shape and the caller region
are preserved (but the state is not left untouched). -/
theorem append_ptr_last_func_ov (r : Nat) (f : Nat → List Nat) (C : Nat) (t : format_target)
    (h : OvState C t) :
    OvState C (t.append_ptr_last_func r f) ∧
    (t.append_ptr_last_func r f).buf.main = t.buf.main := by
  obtain ⟨hrs, hrm⟩ := try_reserve_ov C (t.buf.bsize + r) t h
  simp only [format_target.append_ptr_last_func]
  by_cases hc : (try_reserve t (t.buf.bsize + r)).buf.bsize + 1
      < (try_reserve t (t.buf.bsize + r)).buf.cap
  · rw [if_pos hc]
    obtain ⟨hw, hwm⟩ := mk_regionWrite_ov C (try_reserve t (t.buf.bsize + r)) _ _ hrs
    obtain ⟨ht, htm⟩ := try_resize_ov C _ _ hw
    exact ⟨ht, by rw [htm, hwm, hrm]⟩
  · rw [if_neg hc]
    exact ⟨hrs, hrm⟩

/-- Running `append_span_func` on an overflowed fixed target runs the caller
writer into the discard region: the overflowed shape and the caller region
are preserved (but the state is not left untouched). -/
theorem append_span_func_ov (r : Nat) (f : Nat → List Nat) (C : Nat) (t : format_target)
    (h : OvState C t) :
    OvState C (t.append_span_func r f) ∧
    (t.append_span_func r f).buf.main = t.buf.main := by
  obtain ⟨hrs, hrm⟩ := try_reserve_ov C (t.buf.bsize + r) t h
  simp only [format_target.append_span_func]
  by_cases hc : (try_reserve t (t.buf.bsize + r)).buf.bsize
      = (try_reserve t (t.buf.bsize + r)).buf.cap
  · rw [if_pos hc]
    exact ⟨hrs, hrm⟩
  · rw [if_neg hc]
    obtain ⟨hw, hwm⟩ := mk_regionWrite_ov C (try_reserve t (t.buf.bsize + r)) _ _ hrs
    obtain ⟨ht, htm⟩ := try_resize_ov C _ _ hw
    exact ⟨ht, by rw [htm, hwm, hrm]⟩

theorem flattenOps_length (ops : List WriteOp) : (flattenOps ops).length = totalLen ops := by
  rw [flattenOps, totalLen, List.length_flatten, List.map_map]
  rfl

theorem GrowState_view (W : List Nat) (t : format_target) (h : GrowState W t) :
    has_overflowed t = false ∧ t.size = W.length ∧ t.contents = W := by
  obtain ⟨h1, h2, h3, h4, h5, h6, h7⟩ := h
  refine ⟨by rw [has_overflowed, h2], ?_, ?_⟩
  · rw [format_target.size, if_neg (by rw [h1]; simp), h4]
  · rw [format_target.contents, format_target.data, if_neg (by rw [h1]; simp),
      if_neg (by rw [h3]; simp), format_target.size, if_neg (by rw [h1]; simp), h4]
    exact h7

theorem applyOp_render (t : format_target) (bs : List Nat) :
    applyOp t (WriteOp.render bs) = t.vformat bs := rfl

theorem fixedRun_OvState (C : Nat) (mem : List Nat) (ops : List WriteOp)
    (hov : has_overflowed (fixedRun C mem ops) = true) :
    OvState C (fixedRun C mem ops) := by
  have h := fixedRun_reach C mem ops
  by_cases hWC : (flattenOps ops).length ≤ C
  · rw [fixedReach, if_pos hWC] at h
    rw [h] at hov
    simp [has_overflowed, normalFixed] at hov
  · rw [fixedReach, if_neg hWC] at h
    exact h.1

theorem c_str_spec (W : List Nat) (t : format_target) (h : GrowState W t) :
    (c_str t).buf.bsize = t.buf.bsize ∧
    (c_str t).contents = t.contents ∧
    ((c_str t).buf.main)[t.buf.bsize]? = some 0 ∧
    (t.buf.bsize ≠ t.buf.cap → (c_str t).buf.cap = t.buf.cap) ∧
    t.buf.bsize < (c_str t).buf.cap ∧
    (c_str t).size = t.size := by
  obtain ⟨h1, h2, h3, h4, h5, h6, h7⟩ := h
  have hsz : t.size = t.buf.bsize := by
    rw [format_target.size, if_neg (by rw [h1]; simp)]
  have hct : t.contents = t.buf.main.take t.buf.bsize := by
    rw [format_target.contents, format_target.data, if_neg (by rw [h1]; simp),
      if_neg (by rw [h3]; simp), hsz]
  by_cases hbc : t.buf.bsize = t.buf.cap
  · have hR : c_str t = setTermByte (growBuffer t (t.buf.cap + 1)) := by
      simp only [c_str, if_pos hbc]
      rw [show try_reserve t (t.buf.cap + 1) = growBuffer t (t.buf.cap + 1) from by
        rw [try_reserve, if_pos (by omega), grow, if_neg (by rw [h1]; simp)]]
      rfl
    have hx1 : (setTermByte (growBuffer t (t.buf.cap + 1))).fixed = false := h1
    have hx3 : (setTermByte (growBuffer t (t.buf.cap + 1))).buf.inDiscard = false := h3
    have hmlen : (t.buf.main ++ List.replicate
        (max (t.buf.cap + t.buf.cap / 2) (t.buf.cap + 1) - t.buf.cap) 0).length
        = max (t.buf.cap + t.buf.cap / 2) (t.buf.cap + 1) := by
      rw [List.length_append, List.length_replicate, h6]
      omega
    rw [hR]
    refine ⟨?_, ?_, ?_, fun hne => absurd hbc hne, ?_, ?_⟩
    · rfl
    · rw [hct, format_target.contents, format_target.data, if_neg (by rw [hx1]; simp),
        if_neg (by rw [hx3]; simp), format_target.size, if_neg (by rw [hx1]; simp)]
      show ((t.buf.main ++ List.replicate
          (max (t.buf.cap + t.buf.cap / 2) (t.buf.cap + 1) - t.buf.cap) 0).set
            t.buf.bsize 0).take t.buf.bsize = t.buf.main.take t.buf.bsize
      rw [List.set_take, List.set_eq_of_length_le (by rw [List.length_take]; omega)]
      rw [List.take_append_of_le_length (by rw [h6, ← hbc])]
    · show ((t.buf.main ++ List.replicate
        (max (t.buf.cap + t.buf.cap / 2) (t.buf.cap + 1) - t.buf.cap) 0).set
          t.buf.bsize 0)[t.buf.bsize]? = some 0
      exact List.getElem?_set_self (by rw [hmlen]; omega)
    · show t.buf.bsize < max (t.buf.cap + t.buf.cap / 2) (t.buf.cap + 1)
      omega
    · rw [format_target.size, if_neg (by rw [hx1]; simp), hsz]
      rfl
  · have hR : c_str t = setTermByte t := by
      simp only [c_str]
      rw [if_neg hbc]
      rfl
    have hx1 : (setTermByte t).fixed = false := h1
    have hx3 : (setTermByte t).buf.inDiscard = false := h3
    have hlt : t.buf.bsize < t.buf.main.length := by
      rw [h6]
      omega
    rw [hR]
    refine ⟨?_, ?_, ?_, fun _ => rfl, ?_, ?_⟩
    · rfl
    · rw [hct, format_target.contents, format_target.data, if_neg (by rw [hx1]; simp),
        if_neg (by rw [hx3]; simp), format_target.size, if_neg (by rw [hx1]; simp)]
      show (t.buf.main.set t.buf.bsize 0).take t.buf.bsize = t.buf.main.take t.buf.bsize
      rw [List.set_take, List.set_eq_of_length_le (by rw [List.length_take]; omega)]
    · show (t.buf.main.set t.buf.bsize 0)[t.buf.bsize]? = some 0
      exact List.getElem?_set_self hlt
    · show t.buf.bsize < t.buf.cap
      omega
    · rw [format_target.size, if_neg (by rw [hx1]; simp), hsz]
      rfl

/-! ### The claims -/

/-- C2: for every fixed-capacity target of capacity `C` (`format_to_fixed`
over a region of length `C`, `format_to_fixed_z` over a region of length
`C + 1`; the hypothesis `C ≤ mem.length` covers both) and every run of
writes whose total byte length exceeds `C`: afterwards `size() = C`,
`has_overflowed() = true`, and the first `C` bytes of the caller-supplied
buffer equal the first `C` bytes of the concatenated input. -/
theorem fixed_overflow_truncates_to_prefix (C : Nat) (mem : List Nat) (ops : List WriteOp)
    (hmem : C ≤ mem.length) (hover : C < totalLen ops) :
    (fixedRun C mem ops).size = C ∧
    has_overflowed (fixedRun C mem ops) = true ∧
    (fixedRun C mem ops).contents = (flattenOps ops).take C := by
  have h := fixedRun_reach C mem ops
  have hlen := flattenOps_length ops
  rw [fixedReach, if_neg (by omega)] at h
  obtain ⟨ho, hm⟩ := h
  refine ⟨size_OvState C _ ho, ho.2.1, ?_⟩
  rw [contents_OvState C _ ho, hm]
  have htl : ((flattenOps ops).take C).length = C := by
    rw [List.length_take]
    omega
  have hz := take_storeBytes_zero ((flattenOps ops).take C) mem (by rw [htl]; omega)
  rw [htl] at hz
  exact hz

theorem fixed_overflow_truncates_to_prefix_w :
    5 ≤ (List.replicate 5 0 : List Nat).length ∧
    5 < totalLen [WriteOp.append helloWorldBytes] ∧
    ((fixedRun 5 (List.replicate 5 0) [WriteOp.append helloWorldBytes]).size = 5 ∧
     has_overflowed (fixedRun 5 (List.replicate 5 0) [WriteOp.append helloWorldBytes]) = true ∧
     (fixedRun 5 (List.replicate 5 0) [WriteOp.append helloWorldBytes]).contents
       = (flattenOps [WriteOp.append helloWorldBytes]).take 5) :=
  ⟨by decide, by decide,
    fixed_overflow_truncates_to_prefix 5 (List.replicate 5 0) [WriteOp.append helloWorldBytes]
      (by decide) (by decide)⟩

/-- C3: for every fixed-capacity target of capacity `C` and every run of
writes whose total byte length is at most `C` (including an exact fit):
afterwards `size()` equals the total length, `has_overflowed() = false`,
and the stored bytes equal the input exactly. -/
theorem fixed_fit_stores_exactly (C : Nat) (mem : List Nat) (ops : List WriteOp)
    (hmem : C ≤ mem.length) (hfit : totalLen ops ≤ C) :
    (fixedRun C mem ops).size = totalLen ops ∧
    has_overflowed (fixedRun C mem ops) = false ∧
    (fixedRun C mem ops).contents = flattenOps ops := by
  have h := fixedRun_reach C mem ops
  have hlen := flattenOps_length ops
  rw [fixedReach, if_pos (by omega)] at h
  rw [h]
  refine ⟨by rw [size_normalFixed, hlen], rfl, ?_⟩
  rw [contents_normalFixed]
  exact take_storeBytes_zero (flattenOps ops) mem (by omega)

theorem fixed_fit_stores_exactly_w :
    5 ≤ (List.replicate 5 0 : List Nat).length ∧
    totalLen [WriteOp.append [104, 105], WriteOp.append [33, 33, 33]] ≤ 5 ∧
    ((fixedRun 5 (List.replicate 5 0) [WriteOp.append [104, 105], WriteOp.append [33, 33, 33]]).size
       = totalLen [WriteOp.append [104, 105], WriteOp.append [33, 33, 33]] ∧
     has_overflowed (fixedRun 5 (List.replicate 5 0)
       [WriteOp.append [104, 105], WriteOp.append [33, 33, 33]]) = false ∧
     (fixedRun 5 (List.replicate 5 0)
       [WriteOp.append [104, 105], WriteOp.append [33, 33, 33]]).contents
       = flattenOps [WriteOp.append [104, 105], WriteOp.append [33, 33, 33]]) :=
  ⟨by decide, by decide,
    fixed_fit_stores_exactly 5 (List.replicate 5 0)
      [WriteOp.append [104, 105], WriteOp.append [33, 33, 33]] (by decide) (by decide)⟩

/-- C4: for every fixed-capacity target, `written() ≤ buffer_capacity`
holds after every run of operations, and while `OVERFLOWED` is set,
`size()` (which delegates to `written()`) reports exactly
`buffer_capacity`, not the true attempted size. -/
theorem fixed_written_bounded (C : Nat) (mem : List Nat) (ops : List WriteOp) :
    (fixedRun C mem ops).written ≤ C ∧
    (has_overflowed (fixedRun C mem ops) = true → (fixedRun C mem ops).size = C) := by
  have h := fixedRun_reach C mem ops
  by_cases hWC : (flattenOps ops).length ≤ C
  · rw [fixedReach, if_pos hWC] at h
    rw [h]
    refine ⟨by rw [written_normalFixed]; exact hWC, ?_⟩
    intro hov
    simp [has_overflowed, normalFixed] at hov
  · rw [fixedReach, if_neg hWC] at h
    obtain ⟨ho, _⟩ := h
    exact ⟨le_of_eq (written_OvState C _ ho), fun _ => size_OvState C _ ho⟩

theorem fixed_written_bounded_w :
    (fixedRun 5 (List.replicate 5 0) [WriteOp.append helloWorldBytes]).written ≤ 5 ∧
    (has_overflowed (fixedRun 5 (List.replicate 5 0) [WriteOp.append helloWorldBytes]) = true →
      (fixedRun 5 (List.replicate 5 0) [WriteOp.append helloWorldBytes]).size = 5) :=
  fixed_written_bounded 5 (List.replicate 5 0) [WriteOp.append helloWorldBytes]

/-- C5: for `format_to_fixed_z` built from a region `(start, last)` with
capacity `C = last - start` (the caller region holds `C + 1` bytes since
`last` itself is writable), after writing `k ≤ C` bytes in total,
`finalise()` stores the terminator byte 0 at offset `k` and returns the
pointer `start + k` (modelled as the offset `k`). -/
theorem finalise_writes_terminator (C : Nat) (mem : List Nat) (ops : List WriteOp)
    (hmem : mem.length = C + 1) (hfit : totalLen ops ≤ C) :
    (finalise (applyOps (format_to_fixed_z_init mem C) ops)).2 = totalLen ops ∧
    ((finalise (applyOps (format_to_fixed_z_init mem C) ops)).1.buf.main)[totalLen ops]?
      = some 0 := by
  have h := fixedRun_reach C mem ops
  have hlen := flattenOps_length ops
  rw [fixedReach, if_pos (by omega)] at h
  show (finalise (fixedRun C mem ops)).2 = totalLen ops ∧
    ((finalise (fixedRun C mem ops)).1.buf.main)[totalLen ops]? = some 0
  rw [h, ← hlen]
  have hs : (flattenOps ops).length < (storeBytes mem 0 (flattenOps ops)).length := by
    rw [storeBytes_length, hmem]
    omega
  obtain ⟨h1, h2, h3⟩ := finalise_normalFixed C (storeBytes mem 0 (flattenOps ops))
    (List.replicate discardSize 0) (flattenOps ops).length hs
  exact ⟨h1, h2⟩

theorem finalise_writes_terminator_w :
    (List.replicate 5 9 : List Nat).length = 4 + 1 ∧
    totalLen [WriteOp.append [97, 98]] ≤ 4 ∧
    ((finalise (applyOps (format_to_fixed_z_init (List.replicate 5 9) 4)
        [WriteOp.append [97, 98]])).2 = totalLen [WriteOp.append [97, 98]] ∧
     ((finalise (applyOps (format_to_fixed_z_init (List.replicate 5 9) 4)
        [WriteOp.append [97, 98]])).1.buf.main)[totalLen [WriteOp.append [97, 98]]]?
       = some 0) :=
  ⟨by decide, by decide,
    finalise_writes_terminator 4 (List.replicate 5 9) [WriteOp.append [97, 98]]
      (by decide) (by decide)⟩

/-- C6: `restore_size(n)` with `n` at most the current `size()` resets
`size()` to `n` on every target; for a fixed-capacity target of capacity
`C` (where `n ≤ size() ≤ C`), it additionally clears `has_overflowed()`,
returning the target to the NORMAL regime with `written = n`. -/
theorem restore_size_resets (C n m : Nat) (mem : List Nat) (ops : List WriteOp)
    (hn : n ≤ (fixedRun C mem ops).size) (hm : m ≤ (bufferRun ops).size) :
    ((format_target.restore_size n (fixedRun C mem ops)).size = n ∧
     has_overflowed (format_target.restore_size n (fixedRun C mem ops)) = false) ∧
    ((format_target.restore_size m (bufferRun ops)).size = m ∧
     has_overflowed (format_target.restore_size m (bufferRun ops)) = false) := by
  constructor
  · have h := fixedRun_reach C mem ops
    by_cases hWC : (flattenOps ops).length ≤ C
    · rw [fixedReach, if_pos hWC] at h
      rw [h] at hn ⊢
      rw [size_normalFixed] at hn
      rw [restore_size_normalFixed C _ _ _ n (by omega)]
      exact ⟨rfl, rfl⟩
    · rw [fixedReach, if_neg hWC] at h
      obtain ⟨ho, _⟩ := h
      have hsz := size_OvState C _ ho
      exact restore_size_OvState C n _ ho (by omega)
  · have h := bufferRun_reach ops
    obtain ⟨_, hsz, _⟩ := GrowState_view _ _ h
    exact restore_size_GrowState _ _ m h (by omega)

theorem restore_size_resets_w :
    3 ≤ (fixedRun 5 (List.replicate 5 0) [WriteOp.append helloWorldBytes]).size ∧
    2 ≤ (bufferRun [WriteOp.append helloWorldBytes]).size ∧
    (((format_target.restore_size 3
        (fixedRun 5 (List.replicate 5 0) [WriteOp.append helloWorldBytes])).size = 3 ∧
      has_overflowed (format_target.restore_size 3
        (fixedRun 5 (List.replicate 5 0) [WriteOp.append helloWorldBytes])) = false) ∧
     ((format_target.restore_size 2 (bufferRun [WriteOp.append helloWorldBytes])).size = 2 ∧
      has_overflowed (format_target.restore_size 2
        (bufferRun [WriteOp.append helloWorldBytes])) = false)) :=
  ⟨by decide, by decide,
    restore_size_resets 5 3 2 (List.replicate 5 0) [WriteOp.append helloWorldBytes]
      (by decide) (by decide)⟩

/-- C7: a buffer-backed target (`format_to_buffer` around an existing
buffer, or the owning `format_buffer`) never sets `OVERFLOWED`, and a run
of writes of total length `L` starting from an empty buffer always yields
`size() = L` with the stored contents exactly the concatenated input —
growable targets never truncate. -/
theorem growable_never_truncates (ops : List WriteOp) (mem : List Nat) :
    (has_overflowed (bufferRun ops) = false ∧
     (bufferRun ops).size = totalLen ops ∧
     (bufferRun ops).contents = flattenOps ops) ∧
    (has_overflowed (applyOps (format_to_buffer_init mem 0) ops) = false ∧
     (applyOps (format_to_buffer_init mem 0) ops).size = totalLen ops ∧
     (applyOps (format_to_buffer_init mem 0) ops).contents = flattenOps ops) := by
  constructor
  · obtain ⟨h1, h2, h3⟩ := GrowState_view _ _ (bufferRun_reach ops)
    exact ⟨h1, by rw [h2, flattenOps_length], h3⟩
  · have h := GrowState_run ops [] _ (GrowState_format_to_buffer_init mem)
    rw [List.nil_append] at h
    obtain ⟨h1, h2, h3⟩ := GrowState_view _ _ h
    exact ⟨h1, by rw [h2, flattenOps_length], h3⟩

/-- C8: `format_buffer::c_str()` leaves the logical size unchanged, writes
the byte 0 at offset `size()` (one past the logical end), leaves the
stored content bytes (the contents of the returned `data()` pointer)
unchanged, changes the capacity only when `size() = capacity()` (the one
extra reserve), and afterwards the terminator offset is strictly within
capacity. -/
theorem c_str_terminates (ops : List WriteOp) :
    (c_str (bufferRun ops)).size = (bufferRun ops).size ∧
    (c_str (bufferRun ops)).contents = (bufferRun ops).contents ∧
    ((c_str (bufferRun ops)).buf.main)[(bufferRun ops).buf.bsize]? = some 0 ∧
    ((bufferRun ops).buf.bsize ≠ (bufferRun ops).buf.cap →
      (c_str (bufferRun ops)).buf.cap = (bufferRun ops).buf.cap) ∧
    (bufferRun ops).buf.bsize < (c_str (bufferRun ops)).buf.cap := by
  obtain ⟨hb, hc, ht, hcap, hlt, hsz⟩ := c_str_spec _ _ (bufferRun_reach ops)
  exact ⟨hsz, hc, ht, hcap, hlt⟩

theorem c_str_terminates_w :
    (c_str (bufferRun [WriteOp.append [104, 105]])).size
      = (bufferRun [WriteOp.append [104, 105]]).size ∧
    (c_str (bufferRun [WriteOp.append [104, 105]])).contents
      = (bufferRun [WriteOp.append [104, 105]]).contents ∧
    ((c_str (bufferRun [WriteOp.append [104, 105]])).buf.main)[(bufferRun
      [WriteOp.append [104, 105]]).buf.bsize]? = some 0 ∧
    ((bufferRun [WriteOp.append [104, 105]]).buf.bsize
        ≠ (bufferRun [WriteOp.append [104, 105]]).buf.cap →
      (c_str (bufferRun [WriteOp.append [104, 105]])).buf.cap
        = (bufferRun [WriteOp.append [104, 105]]).buf.cap) ∧
    (bufferRun [WriteOp.append [104, 105]]).buf.bsize
      < (c_str (bufferRun [WriteOp.append [104, 105]])).buf.cap :=
  c_str_terminates [WriteOp.append [104, 105]]

/-- C9: rendering a template (modelled by its rendered byte sequence) into
a growable target and into a fixed-capacity target whose capacity is at
least the rendered length yields byte-identical contents and equal
`size()`; and `vformat` on any target equals appending the bytes obtained
by pre-rendering into a fresh `format_buffer`. -/
theorem render_roundtrip (rendered : List Nat) (C : Nat) (mem : List Nat)
    (hmem : C ≤ mem.length) (hfit : rendered.length ≤ C) :
    (format_target.vformat rendered format_buffer_init).contents
      = (format_target.vformat rendered (format_to_fixed_init mem C)).contents ∧
    (format_target.vformat rendered format_buffer_init).size
      = (format_target.vformat rendered (format_to_fixed_init mem C)).size ∧
    (∀ t : format_target, format_target.vformat rendered t
      = format_target.append
          ((format_target.vformat rendered format_buffer_init).contents) t) := by
  have hg := GrowState_step [] format_buffer_init (WriteOp.render rendered)
    GrowState_format_buffer_init
  simp only [WriteOp.bytes, List.nil_append, applyOp_render] at hg
  obtain ⟨hov, hsz, hct⟩ := GrowState_view _ _ hg
  have hf := fixedReach_step C mem [] (format_to_fixed_init mem C) (WriteOp.render rendered)
    (fixedReach_init C mem)
  simp only [WriteOp.bytes, List.nil_append, applyOp_render] at hf
  rw [fixedReach, if_pos (by omega)] at hf
  refine ⟨?_, ?_, ?_⟩
  · rw [hct, hf, contents_normalFixed]
    exact (take_storeBytes_zero rendered mem (by omega)).symm
  · rw [hsz, hf, size_normalFixed]
  · intro t
    rw [hct]
    rfl

theorem render_roundtrip_w :
    2 ≤ (List.replicate 5 0 : List Nat).length ∧
    ([104, 105] : List Nat).length ≤ 2 ∧
    ((format_target.vformat [104, 105] format_buffer_init).contents
       = (format_target.vformat [104, 105]
           (format_to_fixed_init (List.replicate 5 0) 2)).contents ∧
     (format_target.vformat [104, 105] format_buffer_init).size
       = (format_target.vformat [104, 105]
           (format_to_fixed_init (List.replicate 5 0) 2)).size ∧
     (∀ t : format_target, format_target.vformat [104, 105] t
       = format_target.append
           ((format_target.vformat [104, 105] format_buffer_init).contents) t)) :=
  ⟨by decide, by decide,
    render_roundtrip [104, 105] 2 (List.replicate 5 0) (by decide) (by decide)⟩

/-- C10: for every fixed-capacity target, `data()` (hence `begin()` and
`end()`) refers to the caller-supplied region (`buffer_ptr`), never to the
private discard region: when `has_overflowed()` holds the internal write
cursor has been redirected into the discard region, yet the caller-visible
contents are still read from the caller region. -/
theorem fixed_data_is_caller_region (C : Nat) (mem : List Nat) (ops : List WriteOp) :
    (fixedRun C mem ops).data = (fixedRun C mem ops).buf.main ∧
    (has_overflowed (fixedRun C mem ops) = true →
      (fixedRun C mem ops).buf.inDiscard = true) ∧
    (fixedRun C mem ops).contents
      = ((fixedRun C mem ops).buf.main).take ((fixedRun C mem ops).size) := by
  have h := fixedRun_reach C mem ops
  by_cases hWC : (flattenOps ops).length ≤ C
  · rw [fixedReach, if_pos hWC] at h
    rw [h]
    refine ⟨rfl, ?_, rfl⟩
    intro hov
    simp [has_overflowed, normalFixed] at hov
  · rw [fixedReach, if_neg hWC] at h
    obtain ⟨ho, _⟩ := h
    refine ⟨data_fixed _ ho.1, fun _ => ho.2.2.2.1, ?_⟩
    rw [contents_OvState C _ ho, size_OvState C _ ho]

theorem fixed_data_is_caller_region_w :
    (fixedRun 5 (List.replicate 5 0) [WriteOp.append helloWorldBytes]).data
      = (fixedRun 5 (List.replicate 5 0) [WriteOp.append helloWorldBytes]).buf.main ∧
    (has_overflowed (fixedRun 5 (List.replicate 5 0) [WriteOp.append helloWorldBytes]) = true →
      (fixedRun 5 (List.replicate 5 0) [WriteOp.append helloWorldBytes]).buf.inDiscard = true) ∧
    (fixedRun 5 (List.replicate 5 0) [WriteOp.append helloWorldBytes]).contents
      = ((fixedRun 5 (List.replicate 5 0) [WriteOp.append helloWorldBytes]).buf.main).take
          ((fixedRun 5 (List.replicate 5 0) [WriteOp.append helloWorldBytes]).size) :=
  fixed_data_is_caller_region 5 (List.replicate 5 0) [WriteOp.append helloWorldBytes]

/-- C1 (amended): once a fixed-capacity target has overflowed, the guarded
write operations — `append`, `push_back`, `format` and `vformat` — are
skipped entirely (the state is bit-for-bit untouched); the two
reserve-and-write forms `append_ptr_last_func` and `append_span_func`
carry no overflow guard and may run the caller writer into the private
discard region, but they leave `size()`, the caller-visible buffer
contents, and the overflow flag unchanged. -/
theorem overflowed_writes_preserve_view (C : Nat) (mem : List Nat) (ops : List WriteOp)
    (bs rd : List Nat) (c r s : Nat) (f g : Nat → List Nat)
    (hov : has_overflowed (fixedRun C mem ops) = true) :
    format_target.append bs (fixedRun C mem ops) = fixedRun C mem ops ∧
    format_target.push_back c (fixedRun C mem ops) = fixedRun C mem ops ∧
    format_target.vformat rd (fixedRun C mem ops) = fixedRun C mem ops ∧
    format_target.format rd (fixedRun C mem ops) = fixedRun C mem ops ∧
    (format_target.append_ptr_last_func r f (fixedRun C mem ops)).size
      = (fixedRun C mem ops).size ∧
    (format_target.append_ptr_last_func r f (fixedRun C mem ops)).contents
      = (fixedRun C mem ops).contents ∧
    has_overflowed (format_target.append_ptr_last_func r f (fixedRun C mem ops)) = true ∧
    (format_target.append_span_func s g (fixedRun C mem ops)).size
      = (fixedRun C mem ops).size ∧
    (format_target.append_span_func s g (fixedRun C mem ops)).contents
      = (fixedRun C mem ops).contents ∧
    has_overflowed (format_target.append_span_func s g (fixedRun C mem ops)) = true := by
  have ho := fixedRun_OvState C mem ops hov
  obtain ⟨ho1, hm1⟩ := append_ptr_last_func_ov r f C _ ho
  obtain ⟨ho2, hm2⟩ := append_span_func_ov s g C _ ho
  refine ⟨?_, ?_, ?_, ?_, ?_, ?_, ?_, ?_, ?_, ?_⟩
  · rw [format_target.append, if_pos hov]
  · rw [format_target.push_back, if_pos hov]
  · rw [format_target.vformat, if_pos hov]
  · rw [format_target.format, if_pos hov]
  · rw [size_OvState C _ ho1, size_OvState C _ ho]
  · rw [contents_OvState C _ ho1, contents_OvState C _ ho, hm1]
  · exact ho1.2.1
  · rw [size_OvState C _ ho2, size_OvState C _ ho]
  · rw [contents_OvState C _ ho2, contents_OvState C _ ho, hm2]
  · exact ho2.2.1

/-- C1 counterexample: the claim as stated is false.  `append_span_func`
carries no `has_overflowed()` guard (src/src/core/format.hpp lines
132-141): on an overflowed `format_to_fixed` target it is not skipped —
it executes the caller-supplied writer and mutates the target state (the
discard-region write cursor advances), so it is not a side-effect-free
no-op on the state. -/
theorem overflowed_span_func_not_skipped :
    has_overflowed (fixedRun 5 (List.replicate 5 0) [WriteOp.append helloWorldBytes]) = true ∧
    format_target.append_span_func 3 (fun _ => [65, 65])
        (fixedRun 5 (List.replicate 5 0) [WriteOp.append helloWorldBytes])
      ≠ fixedRun 5 (List.replicate 5 0) [WriteOp.append helloWorldBytes] :=
  ⟨by decide, by decide⟩

theorem overflowed_writes_preserve_view_w :
    has_overflowed (fixedRun 5 (List.replicate 5 0) [WriteOp.append helloWorldBytes]) = true ∧
    (format_target.append [1, 2] (fixedRun 5 (List.replicate 5 0)
        [WriteOp.append helloWorldBytes])
      = fixedRun 5 (List.replicate 5 0) [WriteOp.append helloWorldBytes] ∧
     format_target.push_back 7 (fixedRun 5 (List.replicate 5 0) [WriteOp.append helloWorldBytes])
      = fixedRun 5 (List.replicate 5 0) [WriteOp.append helloWorldBytes] ∧
     format_target.vformat [3] (fixedRun 5 (List.replicate 5 0) [WriteOp.append helloWorldBytes])
      = fixedRun 5 (List.replicate 5 0) [WriteOp.append helloWorldBytes] ∧
     format_target.format [3] (fixedRun 5 (List.replicate 5 0) [WriteOp.append helloWorldBytes])
      = fixedRun 5 (List.replicate 5 0) [WriteOp.append helloWorldBytes] ∧
     (format_target.append_ptr_last_func 4 (fun _ => [9])
        (fixedRun 5 (List.replicate 5 0) [WriteOp.append helloWorldBytes])).size
      = (fixedRun 5 (List.replicate 5 0) [WriteOp.append helloWorldBytes]).size ∧
     (format_target.append_ptr_last_func 4 (fun _ => [9])
        (fixedRun 5 (List.replicate 5 0) [WriteOp.append helloWorldBytes])).contents
      = (fixedRun 5 (List.replicate 5 0) [WriteOp.append helloWorldBytes]).contents ∧
     has_overflowed (format_target.append_ptr_last_func 4 (fun _ => [9])
        (fixedRun 5 (List.replicate 5 0) [WriteOp.append helloWorldBytes])) = true ∧
     (format_target.append_span_func 3 (fun _ => [65, 65])
        (fixedRun 5 (List.replicate 5 0) [WriteOp.append helloWorldBytes])).size
      = (fixedRun 5 (List.replicate 5 0) [WriteOp.append helloWorldBytes]).size ∧
     (format_target.append_span_func 3 (fun _ => [65, 65])
        (fixedRun 5 (List.replicate 5 0) [WriteOp.append helloWorldBytes])).contents
      = (fixedRun 5 (List.replicate 5 0) [WriteOp.append helloWorldBytes]).contents ∧
     has_overflowed (format_target.append_span_func 3 (fun _ => [65, 65])
        (fixedRun 5 (List.replicate 5 0) [WriteOp.append helloWorldBytes])) = true) :=
  ⟨by decide,
    overflowed_writes_preserve_view 5 (List.replicate 5 0) [WriteOp.append helloWorldBytes]
      [1, 2] [3] 7 4 3 (fun _ => [9]) (fun _ => [65, 65]) (by decide)⟩
